import Mathlib

/-!
# Chunked Embedding Producer — verification of the chunking/embedding helper

A shallow embedding of `MyEmbeddingFunction` from
`src/Fin_Document_Analysis_ag2/ag2_working_rag.py`:

* `split_into_chunks` — the Python list comprehension
  `[document[i:i + chunk_size] for i in range(0, len(document), chunk_size)]`,
  with Python `range` and slice semantics modelled explicitly
  (`range` with step 0 raises `ValueError`, so the function returns `Except`);
* `embedAll` / `embedAllTrace` — the per-chunk provider loop of `__call__`
  (append each result to one list, return only at the end; a provider
  exception propagates), instrumented with the list of chunks actually
  passed to the provider, in call order;
* `MyEmbeddingFunction_call` — the outer loop of `__call__` over a list of
  input documents, with the fixed default `chunk_size = 512`.

Documents are modelled as `List Char` (a Python `str` is a sequence of
characters); embedding vectors are an abstract type, since their content
is produced by the external provider.
-/

/-- Errors raised by the Python runtime in the modelled code.
`range(0, n, 0)` raises `ValueError: range() arg 3 must not be zero`. -/
inductive PyError where
  | valueError
deriving DecidableEq, Repr

/-- Number of elements of Python `range(start, stop, step)` for `step ≠ 0`:
`max 0 (ceil((stop - start) / step))`, computed as in CPython's
`range_length`.  For `step = 0` the Python call raises instead; callers
model that case before calling this function. -/
def pyRangeLen (start stop step : Int) : Nat :=
  if 0 < step then ((stop - start + step - 1) / step).toNat
  else ((start - stop + (-step) - 1) / (-step)).toNat

/-- Python `range(start, stop, step)` for `step ≠ 0`: the arithmetic
progression `start, start + step, …` of length `pyRangeLen start stop step`. -/
def pyRange (start stop step : Int) : List Int :=
  (List.range (pyRangeLen start stop step)).map (fun (i : Nat) => start + step * (i : Int))

/-- Normalisation of a Python slice endpoint against a sequence of length
`n`: a negative index counts from the end and is clamped below by `0`; a
non-negative index is clamped above by `n`. -/
def pySliceIdx (n : Nat) (i : Int) : Nat :=
  if i < 0 then (i + n).toNat else min i.toNat n

/-- Python slice `l[lo:hi]` (step 1): the elements from the normalised
lower bound (inclusive) to the normalised upper bound (exclusive). -/
def pySlice (l : List α) (lo hi : Int) : List α :=
  (l.drop (pySliceIdx l.length lo)).take (pySliceIdx l.length hi - pySliceIdx l.length lo)

/-- The list comprehension body of `split_into_chunks`:
`[document[i:i + chunk_size] for i in range(0, len(document), chunk_size)]`,
meaningful only for `chunk_size ≠ 0`. -/
def splitChunksRaw (document : List Char) (chunk_size : Int) : List (List Char) :=
  (pyRange 0 document.length chunk_size).map (fun i => pySlice document i (i + chunk_size))

/-- `MyEmbeddingFunction.split_into_chunks` from
`src/Fin_Document_Analysis_ag2/ag2_working_rag.py` (lines 88–90):

    def split_into_chunks(self, document: str, chunk_size: int = 512) -> list:
        return [document[i:i + chunk_size] for i in range(0, len(document), chunk_size)]

With `chunk_size = 0`, `range(0, len(document), 0)` raises `ValueError`,
which propagates out of the method; that is the `.error` case here. -/
def split_into_chunks (document : List Char) (chunk_size : Int := 512) :
    Except PyError (List (List Char)) :=
  if chunk_size = 0 then .error .valueError
  else .ok (splitChunksRaw document chunk_size)

deriving instance DecidableEq for Except

/-- The inner per-chunk loop of `MyEmbeddingFunction.__call__`
(`src/Fin_Document_Analysis_ag2/ag2_working_rag.py`, lines 96–101):

            for chunk in chunks:
                response = self.client.embeddings.create(
                    input=[chunk],
                    model="text-embedding-3-small"
                ).data[0].embedding
                all_embeddings.append(response)

The provider call (`self.client.embeddings.create(...)`) is modelled as a
function into `Except ε V`: a raised exception is the `.error` case; it
propagates immediately, discarding the accumulated list. -/
def embedAllLoop (provider : List Char → Except ε V) (all_embeddings : List V) :
    List (List Char) → Except ε (List V)
  | [] => .ok all_embeddings
  | chunk :: rest =>
    match provider chunk with
    | .error e => .error e
    | .ok v => embedAllLoop provider (all_embeddings ++ [v]) rest

/-- The spec's `embed_all(chunks, provider)`: the per-chunk loop run from
an empty accumulator, returning the collected list only at the end. -/
def embedAll (provider : List Char → Except ε V) (chunks : List (List Char)) :
    Except ε (List V) :=
  embedAllLoop provider [] chunks

/-- `embedAllLoop` instrumented with the list of chunks actually passed to
the provider, in call order (second component of the result). -/
def embedAllTraceLoop (provider : List Char → Except ε V) (all_embeddings : List V)
    (calls : List (List Char)) :
    List (List Char) → Except ε (List V) × List (List Char)
  | [] => (.ok all_embeddings, calls)
  | chunk :: rest =>
    match provider chunk with
    | .error e => (.error e, calls ++ [chunk])
    | .ok v => embedAllTraceLoop provider (all_embeddings ++ [v]) (calls ++ [chunk]) rest

/-- `embedAll` with its provider-call trace. -/
def embedAllTrace (provider : List Char → Except ε V) (chunks : List (List Char)) :
    Except ε (List V) × List (List Char) :=
  embedAllTraceLoop provider [] [] chunks

/-- The outer loop of `__call__` over the input documents: each document is
split with the *default* `chunk_size = 512` and every chunk's embedding is
appended to the single shared `all_embeddings` list.  A `range` failure
surfaces as `.inl`, a provider failure as `.inr`. -/
def myCallLoop (provider : List Char → Except ε V) (all_embeddings : List V) :
    List (List Char) → Except (PyError ⊕ ε) (List V)
  | [] => .ok all_embeddings
  | doc :: rest => do
    let chunks ← (split_into_chunks doc).mapError Sum.inl
    let acc ← (embedAllLoop provider all_embeddings chunks).mapError Sum.inr
    myCallLoop provider acc rest

/-- `MyEmbeddingFunction.__call__(input)` (lines 92–102): starts from an
empty `all_embeddings` list and returns it only after every document's
every chunk has been embedded. -/
def MyEmbeddingFunction_call (provider : List Char → Except ε V)
    (input : List (List Char)) : Except (PyError ⊕ ε) (List V) :=
  myCallLoop provider [] input

/-- The spec's composite entry point
`embed_document(document, chunk_size, provider) =
embed_all(chunk(document, chunk_size), provider)`, instrumented with the
chunks passed to the provider.  A chunking (`range`) failure surfaces as
`.inl` with an empty call trace — before any provider call; a provider
failure surfaces as `.inr`. -/
def embed_documentTrace (document : List Char) (chunk_size : Int)
    (provider : List Char → Except ε V) :
    Except (PyError ⊕ ε) (List V) × List (List Char) :=
  match split_into_chunks document chunk_size with
  | .error e => (.error (.inl e), [])
  | .ok chunks =>
    match embedAllTrace provider chunks with
    | (.ok vs, calls) => (.ok vs, calls)
    | (.error e, calls) => (.error (.inr e), calls)

section Lemmas

/-- For a positive step `(c : Nat)`, `c ≥ 1`, the length of
`range(0, n, c)` is the ceiling `⌈n / c⌉`. -/
theorem pyRangeLen_pos (n c : Nat) (hc : 1 ≤ c) :
    pyRangeLen 0 n c = n ⌈/⌉ c := by
  unfold pyRangeLen
  have hcpos : (0 : Int) < (c : Int) := by exact_mod_cast hc
  rw [if_pos hcpos]
  have h1 : ((n : Int) - 0 + c - 1) = ((n + c - 1 : Nat) : Int) := by
    push_cast [Nat.cast_sub (by omega : 1 ≤ n + c)]
    ring
  rw [h1, ← Int.natCast_div, Int.toNat_ofNat, Nat.ceilDiv_eq_add_pred_div]

/-- For a positive step, `range(0, n, c)` is the list `0, c, 2c, …`. -/
theorem pyRange_pos (n c : Nat) (hc : 1 ≤ c) :
    pyRange 0 n c = (List.range (n ⌈/⌉ c)).map (fun j => ((c * j : Nat) : Int)) := by
  unfold pyRange
  rw [pyRangeLen_pos n c hc]
  apply List.map_congr_left
  intro j _
  push_cast
  ring

/-- A slice `l[lo : lo + c]` with non-negative endpoints is
`take c (drop lo)`. -/
theorem pySlice_nonneg (l : List α) (lo c : Nat) :
    pySlice l lo (lo + c : Nat) = (l.drop lo).take c := by
  unfold pySlice pySliceIdx
  have h0 : ¬ ((lo : Int) < 0) := by omega
  have h1 : ¬ (((lo + c : Nat) : Int) < 0) := by omega
  rw [if_neg h0, if_neg h1]
  simp only [Int.toNat_ofNat]
  rcases le_or_lt lo l.length with hlo | hlo
  · rw [min_eq_left hlo]
    rcases le_or_lt (lo + c) l.length with hhi | hhi
    · rw [min_eq_left hhi]
      congr 1
      omega
    · rw [min_eq_right (le_of_lt hhi)]
      rw [List.take_eq_take]
      simp only [List.length_drop]
      omega
  · rw [min_eq_right (le_of_lt hlo), min_eq_right (by omega : l.length ≤ lo + c)]
    simp [List.drop_eq_nil_of_le (le_of_lt hlo)]

/-- For `chunk_size = (c : Nat)`, `c ≥ 1`, the comprehension produces the
windows `take c (drop (j * c))` for `j = 0, …, ⌈n/c⌉ - 1`. -/
theorem splitChunksRaw_eq (document : List Char) (c : Nat) (hc : 1 ≤ c) :
    splitChunksRaw document c =
      (List.range (document.length ⌈/⌉ c)).map
        (fun j => (document.drop (j * c)).take c) := by
  unfold splitChunksRaw
  rw [pyRange_pos document.length c hc, List.map_map]
  apply List.map_congr_left
  intro j _
  simp only [Function.comp]
  have h1 : ((c * j : Nat) : Int) + (c : Int) = ((c * j + c : Nat) : Int) := by push_cast; ring
  rw [h1, pySlice_nonneg document (c * j) c]
  rw [Nat.mul_comm c j]

/-- `split_into_chunks` succeeds for every non-zero `chunk_size`, in
particular for every `chunk_size ≥ 1`, with the window list as value. -/
theorem split_into_chunks_pos (document : List Char) (c : Nat) (hc : 1 ≤ c) :
    split_into_chunks document c =
      .ok ((List.range (document.length ⌈/⌉ c)).map
        (fun j => (document.drop (j * c)).take c)) := by
  unfold split_into_chunks
  rw [if_neg (by exact_mod_cast (by omega : ¬ ((c : Int) = 0)))]
  rw [splitChunksRaw_eq document c hc]

/-- Ceiling division peels off one window: for `n ≥ 1` and `c ≥ 1`,
`⌈n/c⌉ = ⌈(n-c)/c⌉ + 1` (truncated subtraction). -/
theorem ceilDiv_succ_window (n c : Nat) (hc : 1 ≤ c) (hn : 1 ≤ n) :
    n ⌈/⌉ c = (n - c) ⌈/⌉ c + 1 := by
  rw [Nat.ceilDiv_eq_add_pred_div, Nat.ceilDiv_eq_add_pred_div]
  rcases le_or_lt n c with h | h
  · have h1 : n - c = 0 := by omega
    rw [h1]
    have h2 : (0 + c - 1) / c = 0 := Nat.div_eq_of_lt (by omega)
    rw [h2]
    exact Nat.div_eq_of_lt_le (by omega) (by omega)
  · have h3 : n + c - 1 = ((n - c) + c - 1) + c := by omega
    rw [h3, Nat.add_div_right _ (by omega : 0 < c)]

/-- Concatenating the windows `take c (drop (j * c))`, `j < ⌈n/c⌉`,
recovers the whole list. -/
theorem flatten_windows (c : Nat) (hc : 1 ≤ c) :
    ∀ (n : Nat) (l : List α), l.length = n →
      ((List.range (l.length ⌈/⌉ c)).map (fun j => (l.drop (j * c)).take c)).flatten = l := by
  intro n
  induction n using Nat.strong_induction_on with
  | _ n ih =>
    intro l hl
    match l with
    | [] => simp
    | a :: t =>
      have hn1 : 1 ≤ (a :: t).length := by simp
      rw [ceilDiv_succ_window _ c hc hn1, List.range_succ_eq_map, List.map_cons,
        List.flatten_cons, List.map_map]
      have hdrop : ∀ j : Nat,
          ((a :: t).drop (Nat.succ j * c)).take c
            = (((a :: t).drop c).drop (j * c)).take c := by
        intro j
        rw [List.drop_drop]
        congr 2
        rw [Nat.succ_mul]
        omega
      have hlen : ((a :: t).drop c).length = (a :: t).length - c := by
        simp [List.length_drop]
      have hmap :
          (List.range (((a :: t).length - c) ⌈/⌉ c)).map
              ((fun j => ((a :: t).drop (j * c)).take c) ∘ Nat.succ)
            = (List.range (((a :: t).drop c).length ⌈/⌉ c)).map
              (fun j => (((a :: t).drop c).drop (j * c)).take c) := by
        rw [hlen]
        apply List.map_congr_left
        intro j _
        exact hdrop j
      rw [hmap, ih (((a :: t).drop c).length) (by omega) _ rfl]
      simp

/-- Every window except possibly the last has length exactly `c`. -/
theorem window_length_of_not_last (l : List α) (c i : Nat) (hc : 1 ≤ c)
    (hi : i + 1 < l.length ⌈/⌉ c) :
    ((l.drop (i * c)).take c).length = c := by
  have hlt : ¬ (l.length ⌈/⌉ c ≤ i + 1) := by omega
  rw [ceilDiv_le_iff_le_mul (by omega : 0 < c)] at hlt
  push_neg at hlt
  simp only [List.length_take, List.length_drop]
  have h2 : c * (i + 1) = i * c + c := by ring
  omega

end Lemmas

/-- C1: for every non-empty document and every `chunk_size ≥ 1`,
`split_into_chunks` partitions the document: it succeeds, the
concatenation of the chunks in order equals the document, the sum of the
chunk lengths equals the document length, chunk `i` is exactly the
contiguous window `take c (drop (i * c))` (so the chunks are contiguous
and non-overlapping), and every chunk except possibly the last has length
exactly `chunk_size`. -/
theorem split_into_chunks_partitions (document : List Char) (c : Nat)
    (hdoc : document ≠ []) (hc : 1 ≤ c) :
    ∃ chunks : List (List Char),
      split_into_chunks document (c : Int) = .ok chunks ∧
      chunks.flatten = document ∧
      (chunks.map List.length).sum = document.length ∧
      (∀ i (hi : i < chunks.length),
        chunks.get ⟨i, hi⟩ = (document.drop (i * c)).take c) ∧
      (∀ i (hi : i < chunks.length),
        i + 1 < chunks.length → (chunks.get ⟨i, hi⟩).length = c) := by
  refine ⟨(List.range (document.length ⌈/⌉ c)).map
      (fun j => (document.drop (j * c)).take c),
    split_into_chunks_pos document c hc, ?_, ?_, ?_, ?_⟩
  · exact flatten_windows c hc document.length document rfl
  · rw [← List.length_flatten, flatten_windows c hc document.length document rfl]
  · intro i hi
    simp only [List.get_eq_getElem, List.getElem_map, List.getElem_range]
  · intro i hi hlast
    simp only [List.length_map, List.length_range] at hlast
    simp only [List.get_eq_getElem, List.getElem_map, List.getElem_range]
    exact window_length_of_not_last document c i hc hlast

/-- Witness for C1 at document `"ABCDE"` and `chunk_size = 2`. -/
theorem split_into_chunks_partitions_witness :
    (['A', 'B', 'C', 'D', 'E'] : List Char) ≠ [] ∧ 1 ≤ 2 ∧
    (∃ chunks : List (List Char),
      split_into_chunks ['A', 'B', 'C', 'D', 'E'] ((2 : Nat) : Int) = .ok chunks ∧
      chunks.flatten = ['A', 'B', 'C', 'D', 'E'] ∧
      (chunks.map List.length).sum = (['A', 'B', 'C', 'D', 'E'] : List Char).length ∧
      (∀ i (hi : i < chunks.length),
        chunks.get ⟨i, hi⟩ = ((['A', 'B', 'C', 'D', 'E'] : List Char).drop (i * 2)).take 2) ∧
      (∀ i (hi : i < chunks.length),
        i + 1 < chunks.length → (chunks.get ⟨i, hi⟩).length = 2)) :=
  ⟨by decide, by decide,
    split_into_chunks_partitions ['A', 'B', 'C', 'D', 'E'] 2 (by decide) (by decide)⟩

/-- C2: for every document and every `chunk_size ≥ 1`, the number of
chunks equals `⌈len(document) / chunk_size⌉` (Mathlib's ceiling division
`⌈/⌉` on `ℕ`). -/
theorem split_into_chunks_count (document : List Char) (c : Nat) (hc : 1 ≤ c) :
    ∃ chunks : List (List Char),
      split_into_chunks document (c : Int) = .ok chunks ∧
      chunks.length = document.length ⌈/⌉ c := by
  refine ⟨_, split_into_chunks_pos document c hc, ?_⟩
  simp [List.length_map, List.length_range]

/-- Witness for C2 at document `"ABCDE"` (length 5) and `chunk_size = 2`:
`⌈5/2⌉ = 3` chunks. -/
theorem split_into_chunks_count_witness :
    1 ≤ 2 ∧
    (∃ chunks : List (List Char),
      split_into_chunks ['A', 'B', 'C', 'D', 'E'] ((2 : Nat) : Int) = .ok chunks ∧
      chunks.length = (['A', 'B', 'C', 'D', 'E'] : List Char).length ⌈/⌉ 2) :=
  ⟨by decide, split_into_chunks_count ['A', 'B', 'C', 'D', 'E'] 2 (by decide)⟩

/-- C8: on the concrete document `"ABCDEFGHIJ"` (length 10) with
`chunk_size = 3`, `split_into_chunks` returns exactly the four chunks
`["ABC", "DEF", "GHI", "J"]`. -/
theorem split_into_chunks_scenario_ABCDEFGHIJ :
    split_into_chunks ['A', 'B', 'C', 'D', 'E', 'F', 'G', 'H', 'I', 'J'] 3 =
      .ok [['A', 'B', 'C'], ['D', 'E', 'F'], ['G', 'H', 'I'], ['J']] := by
  rfl

/-- Running the instrumented loop over chunks on which the provider
succeeds appends one result per chunk to the accumulator and records one
call per chunk, in order. -/
theorem embedAllTraceLoop_ok (provider : List Char → Except ε V) (g : List Char → V)
    (chunks : List (List Char)) :
    ∀ (acc : List V) (calls : List (List Char)),
      (∀ ch ∈ chunks, provider ch = .ok (g ch)) →
      embedAllTraceLoop provider acc calls chunks =
        (.ok (acc ++ chunks.map g), calls ++ chunks) := by
  induction chunks with
  | nil => intro acc calls _; simp [embedAllTraceLoop]
  | cons ch rest ih =>
    intro acc calls hg
    have h1 : provider ch = .ok (g ch) := hg ch (by simp)
    simp only [embedAllTraceLoop, h1]
    rw [ih (acc ++ [g ch]) (calls ++ [ch]) (fun c hc => hg c (by simp [hc]))]
    simp

/-- The uninstrumented loop is the first component of the instrumented one. -/
theorem embedAllLoop_eq_traceLoop_fst (provider : List Char → Except ε V)
    (chunks : List (List Char)) :
    ∀ (acc : List V) (calls : List (List Char)),
      embedAllLoop provider acc chunks =
        (embedAllTraceLoop provider acc calls chunks).fst := by
  induction chunks with
  | nil => intro acc calls; simp [embedAllLoop, embedAllTraceLoop]
  | cons ch rest ih =>
    intro acc calls
    cases hp : provider ch with
    | error e => simp [embedAllLoop, embedAllTraceLoop, hp]
    | ok v => simp only [embedAllLoop, embedAllTraceLoop, hp]; exact ih _ _

/-- C3: for every chunk sequence and every provider that succeeds on each
chunk (with result `g ch` on chunk `ch`), `embed_all` invokes the provider
exactly once per chunk, in chunk order (the call trace is exactly the
chunk list), and returns the result set `chunks.map g`, whose element at
index `i` is the provider's result for `chunks[i]` and whose length equals
the number of chunks. -/
theorem embedAll_order_preserving (provider : List Char → Except ε V)
    (g : List Char → V) (chunks : List (List Char))
    (hg : ∀ ch ∈ chunks, provider ch = .ok (g ch)) :
    embedAllTrace provider chunks = (.ok (chunks.map g), chunks) ∧
    embedAll provider chunks = .ok (chunks.map g) ∧
    (chunks.map g).length = chunks.length ∧
    ∀ i (hi : i < chunks.length),
      (chunks.map g)[i]? = some (g (chunks.get ⟨i, hi⟩)) := by
  have htr : embedAllTrace provider chunks = (.ok (chunks.map g), chunks) := by
    unfold embedAllTrace
    rw [embedAllTraceLoop_ok provider g chunks [] [] hg]
    simp
  refine ⟨htr, ?_, by simp, ?_⟩
  · unfold embedAll
    rw [embedAllLoop_eq_traceLoop_fst provider chunks [] []]
    rw [show embedAllTraceLoop provider [] [] chunks
          = (Except.ok (chunks.map g), chunks) from htr]
  · intro i hi
    simp [List.getElem?_map, List.getElem?_eq_getElem hi]

/-- Witness for C3: two chunks, provider returning each chunk's length. -/
theorem embedAll_order_preserving_witness :
    (∀ ch ∈ ([['A'], ['B', 'C']] : List (List Char)),
      (fun ch => (Except.ok ch.length : Except Unit Nat)) ch = .ok ch.length) ∧
    embedAllTrace (fun ch => (Except.ok ch.length : Except Unit Nat)) [['A'], ['B', 'C']] =
      (.ok [1, 2], [['A'], ['B', 'C']]) :=
  ⟨fun _ _ => rfl,
    (embedAll_order_preserving (fun ch => (Except.ok ch.length : Except Unit Nat))
      List.length [['A'], ['B', 'C']] (fun _ _ => rfl)).1⟩

/-- If the provider succeeds on the first `k` chunks and fails on chunk
`k`, the instrumented loop propagates the failure, discards the
accumulator, and its call trace is exactly the first `k + 1` chunks. -/
theorem embedAllTraceLoop_fail (provider : List Char → Except ε V) (g : List Char → V)
    (e : ε) :
    ∀ (k : Nat) (chunks : List (List Char)) (acc : List V) (calls : List (List Char))
      (hk : k < chunks.length),
      (∀ ch ∈ chunks.take k, provider ch = .ok (g ch)) →
      provider (chunks.get ⟨k, hk⟩) = .error e →
      embedAllTraceLoop provider acc calls chunks =
        (.error e, calls ++ chunks.take (k + 1)) := by
  intro k
  induction k with
  | zero =>
    intro chunks acc calls hk hok hfail
    match chunks with
    | ch :: rest =>
      simp only [List.get] at hfail
      simp [embedAllTraceLoop, hfail]
  | succ k ih =>
    intro chunks acc calls hk hok hfail
    match chunks with
    | ch :: rest =>
      have h1 : provider ch = .ok (g ch) := by
        apply hok ch
        simp [List.take_succ_cons]
      simp only [embedAllTraceLoop, h1]
      have hk' : k < rest.length := by simpa using hk
      have hok' : ∀ c ∈ rest.take k, provider c = .ok (g c) := by
        intro c hc
        exact hok c (by simp [List.take_succ_cons, hc])
      have hfail' : provider (rest.get ⟨k, hk'⟩) = .error e := by
        simpa using hfail
      rw [ih rest (acc ++ [g ch]) (calls ++ [ch]) hk' hok' hfail']
      simp [List.take_succ_cons]

/-- C4: if the provider succeeds on the chunks before index `k` and fails
on the chunk at index `k` with cause `e`, then `embed_all` fails with
that cause (no partial result set is returned — the discarded accumulator
never reaches the caller), the call trace is exactly the first `k + 1`
chunks — so the provider is not invoked for any chunk at an index greater
than `k` — and the trace has length `k + 1`, identifying the failing
index `k`. -/
theorem embedAll_fail_all_or_nothing (provider : List Char → Except ε V)
    (g : List Char → V) (chunks : List (List Char)) (k : Nat) (e : ε)
    (hk : k < chunks.length)
    (hok : ∀ ch ∈ chunks.take k, provider ch = .ok (g ch))
    (hfail : provider (chunks.get ⟨k, hk⟩) = .error e) :
    embedAllTrace provider chunks = (.error e, chunks.take (k + 1)) ∧
    embedAll provider chunks = .error e ∧
    (chunks.take (k + 1)).length = k + 1 := by
  have htr : embedAllTrace provider chunks = (.error e, chunks.take (k + 1)) := by
    unfold embedAllTrace
    rw [embedAllTraceLoop_fail provider g e k chunks [] [] hk hok hfail]
    simp
  refine ⟨htr, ?_, by simp [List.length_take]; omega⟩
  unfold embedAll
  rw [embedAllLoop_eq_traceLoop_fst provider chunks [] []]
  rw [show embedAllTraceLoop provider [] [] chunks
        = (Except.error e, chunks.take (k + 1)) from htr]

/-- Witness for C4: five chunks, the provider fails on the chunk at
index 2; the failure propagates and chunks 3 and 4 are never passed to
the provider. -/
theorem embedAll_fail_all_or_nothing_witness :
    2 < ([['A'], ['B'], ['C'], ['D'], ['E']] : List (List Char)).length ∧
    embedAllTrace
        (fun ch => if ch = ['C'] then (Except.error 7 : Except Nat Nat) else .ok ch.length)
        [['A'], ['B'], ['C'], ['D'], ['E']] =
      (.error 7, [['A'], ['B'], ['C']]) := by
  refine ⟨by decide, ?_⟩
  exact (embedAll_fail_all_or_nothing
    (fun ch => if ch = ['C'] then (Except.error 7 : Except Nat Nat) else .ok ch.length)
    List.length [['A'], ['B'], ['C'], ['D'], ['E']] 2 7 (by decide)
    (by intro ch hch; simp only [List.take] at hch; fin_cases hch <;> decide)
    (by decide)).1

/-- C6: for every `chunk_size ≥ 1`, splitting the empty document yields
zero chunks, and `embed_document` on the empty document returns the empty
result set with an empty provider-call trace (the provider is never
invoked). -/
theorem empty_document_zero_chunks (c : Nat) (hc : 1 ≤ c)
    (provider : List Char → Except ε V) :
    split_into_chunks ([] : List Char) (c : Int) = .ok [] ∧
    embed_documentTrace [] (c : Int) provider = (.ok [], []) := by
  have h1 : split_into_chunks ([] : List Char) (c : Int) = .ok [] := by
    rw [split_into_chunks_pos [] c hc]
    simp
  refine ⟨h1, ?_⟩
  unfold embed_documentTrace
  rw [h1]
  rfl

/-- Witness for C6 at `chunk_size = 5` with a concrete provider. -/
theorem empty_document_zero_chunks_witness :
    1 ≤ 5 ∧
    (split_into_chunks ([] : List Char) ((5 : Nat) : Int) = .ok [] ∧
      embed_documentTrace [] ((5 : Nat) : Int)
          (fun ch => (Except.ok ch.length : Except Unit Nat)) = (.ok [], [])) :=
  ⟨by decide,
    empty_document_zero_chunks 5 (by decide)
      (fun ch => (Except.ok ch.length : Except Unit Nat))⟩

/-- Every normalised slice endpoint is at most the sequence length. -/
theorem pySliceIdx_le (n : Nat) (i : Int) : pySliceIdx n i ≤ n := by
  unfold pySliceIdx
  split <;> omega

/-- The length of a Python slice depends only on the length of the
sequence and the two endpoints. -/
theorem length_pySlice (l : List α) (lo hi : Int) :
    (pySlice l lo hi).length = pySliceIdx l.length hi - pySliceIdx l.length lo := by
  unfold pySlice
  simp only [List.length_take, List.length_drop]
  have := pySliceIdx_le l.length hi
  omega

/-- C7: `split_into_chunks` is deterministic — re-invoking it with the
same inputs gives the same chunk sequence — and the chunk boundaries
depend only on the document length and the chunk size: two documents of
the same length are split into chunks of the same lengths (hence at the
same boundaries), for every `chunk_size`. -/
theorem split_into_chunks_deterministic (d₁ d₂ : List Char) (cs : Int)
    (hlen : d₁.length = d₂.length) :
    split_into_chunks d₁ cs = split_into_chunks d₁ cs ∧
    Except.map (List.map List.length) (split_into_chunks d₁ cs) =
      Except.map (List.map List.length) (split_into_chunks d₂ cs) := by
  refine ⟨rfl, ?_⟩
  unfold split_into_chunks
  by_cases h0 : cs = 0
  · subst h0
    rfl
  · rw [if_neg h0, if_neg h0]
    show Except.ok ((splitChunksRaw d₁ cs).map List.length)
        = Except.ok ((splitChunksRaw d₂ cs).map List.length)
    congr 1
    unfold splitChunksRaw
    rw [← hlen, List.map_map, List.map_map]
    apply List.map_congr_left
    intro i _
    simp only [Function.comp]
    rw [length_pySlice, length_pySlice, hlen]

/-- Witness for C7: two distinct documents of equal length, `chunk_size = 2`. -/
theorem split_into_chunks_deterministic_witness :
    (['A', 'B', 'C'] : List Char).length = (['X', 'Y', 'Z'] : List Char).length ∧
    Except.map (List.map List.length) (split_into_chunks ['A', 'B', 'C'] 2) =
      Except.map (List.map List.length) (split_into_chunks ['X', 'Y', 'Z'] 2) :=
  ⟨by decide, (split_into_chunks_deterministic ['A', 'B', 'C'] ['X', 'Y', 'Z'] 2 (by decide)).2⟩

/-- For a negative `chunk_size`, `range(0, len(document), chunk_size)`
counts downwards from `0` and is empty (the document length is never
below `0`), so `split_into_chunks` returns the empty list without
raising. Shared helper for the claims about negative chunk sizes. -/
theorem split_into_chunks_neg_aux (document : List Char) (cs : Int) (hneg : cs ≤ -1) :
    split_into_chunks document cs = .ok [] := by
  unfold split_into_chunks
  rw [if_neg (by omega : ¬ cs = 0)]
  unfold splitChunksRaw pyRange pyRangeLen
  rw [if_neg (by omega : ¬ (0 : Int) < cs)]
  have hn : (0 : Int) ≤ (document.length : Int) := by positivity
  have hpos : (0 : Int) < -cs := by omega
  have hlt : (0 : Int) - (document.length : Int) + (-cs) - 1 < 1 * (-cs) := by omega
  have hdiv : ((0 : Int) - (document.length : Int) + (-cs) - 1) / (-cs) < 1 :=
    (Int.ediv_lt_iff_lt_mul hpos).mpr hlt
  have h0 : (((0 : Int) - (document.length : Int) + (-cs) - 1) / (-cs)).toNat = 0 :=
    Int.toNat_eq_zero.mpr (by omega)
  rw [h0]
  rfl

/-- C10 (implicit): for every document and every negative `chunk_size`,
`split_into_chunks` does not fail: it returns the empty list, silently
producing zero chunks rather than raising any error. -/
theorem split_into_chunks_negative (document : List Char) (cs : Int) (hneg : cs ≤ -1) :
    split_into_chunks document cs = .ok [] :=
  split_into_chunks_neg_aux document cs hneg

/-- Witness for C10 at document `"A"` and `chunk_size = -1`. -/
theorem split_into_chunks_negative_witness :
    (-1 : Int) ≤ -1 ∧ split_into_chunks ['A'] (-1) = .ok [] :=
  ⟨by decide, split_into_chunks_negative ['A'] (-1) (by decide)⟩

/-- C5 counterexample: at document `"AB"` and `chunk_size = -1 < 1`,
`split_into_chunks` does not fail with any error — it succeeds with zero
chunks — refuting the claim that every `chunk_size < 1` fails with an
`InvalidArgument` error. -/
theorem split_into_chunks_neg_counterexample :
    split_into_chunks ['A', 'B'] (-1) = .ok [] ∧
    (split_into_chunks ['A', 'B'] (-1)).isOk = true := by
  exact ⟨rfl, rfl⟩

/-- C5 (amended): for `chunk_size = 0`, `split_into_chunks` fails with the
`ValueError` raised by `range` (the `InvalidArgument` condition), and when
invoked through `embed_document` this failure occurs before any provider
call (empty call trace); for every negative `chunk_size`, however, the
function does not fail and returns zero chunks. -/
theorem chunk_size_zero_fails (document : List Char)
    (provider : List Char → Except ε V) :
    split_into_chunks document 0 = .error .valueError ∧
    embed_documentTrace document 0 provider = (.error (.inl .valueError), []) ∧
    ∀ cs : Int, cs ≤ -1 → split_into_chunks document cs = .ok [] := by
  have h1 : split_into_chunks document 0 = .error .valueError := rfl
  refine ⟨h1, ?_, fun cs hcs => split_into_chunks_neg_aux document cs hcs⟩
  unfold embed_documentTrace
  rw [h1]

/-- Witness for C5 (amended) at document `"AB"` with a concrete provider. -/
theorem chunk_size_zero_fails_witness :
    split_into_chunks ['A', 'B'] 0 = .error .valueError ∧
    embed_documentTrace ['A', 'B'] 0
        (fun ch => (Except.ok ch.length : Except Unit Nat)) =
      (.error (.inl .valueError), []) :=
  ⟨(chunk_size_zero_fails ['A', 'B']
      (fun ch => (Except.ok ch.length : Except Unit Nat))).1,
    (chunk_size_zero_fails ['A', 'B']
      (fun ch => (Except.ok ch.length : Except Unit Nat))).2.1⟩

/-- The uninstrumented inner loop on all-success chunks appends one result
per chunk to the accumulator. -/
theorem embedAllLoop_ok (provider : List Char → Except ε V) (g : List Char → V)
    (chunks : List (List Char)) (acc : List V)
    (hg : ∀ ch ∈ chunks, provider ch = .ok (g ch)) :
    embedAllLoop provider acc chunks = .ok (acc ++ chunks.map g) := by
  rw [embedAllLoop_eq_traceLoop_fst provider chunks acc [],
    embedAllTraceLoop_ok provider g chunks acc [] hg]

/-- `Except` bind on a success value applies the continuation. -/
theorem except_bind_ok (a : α) (f : α → Except ε β) :
    (Except.ok a >>= f) = f a := rfl

/-- `Except.mapError` leaves a success value unchanged. -/
theorem except_mapError_ok (a : α) (f : ε → ε') :
    (Except.ok a : Except ε α).mapError f = .ok a := rfl

/-- The outer loop of `__call__` on an all-success provider concatenates
the per-document, per-chunk results onto the shared accumulator. -/
theorem myCallLoop_ok (provider : List Char → Except ε V) (g : List Char → V)
    (hg : ∀ ch, provider ch = .ok (g ch)) (input : List (List Char)) :
    ∀ acc : List V,
      myCallLoop provider acc input =
        .ok (acc ++ (input.map (fun doc => (splitChunksRaw doc 512).map g)).flatten) := by
  induction input with
  | nil => intro acc; simp [myCallLoop]
  | cons doc rest ih =>
    intro acc
    have hsplit : split_into_chunks doc = .ok (splitChunksRaw doc 512) := by
      unfold split_into_chunks
      rw [if_neg (by norm_num : ¬ (512 : Int) = 0)]
    have hloop : embedAllLoop provider acc (splitChunksRaw doc 512) =
        .ok (acc ++ (splitChunksRaw doc 512).map g) :=
      embedAllLoop_ok provider g _ acc (fun ch _ => hg ch)
    simp only [myCallLoop, hsplit, except_mapError_ok, except_bind_ok]
    simp only [hloop, except_mapError_ok, except_bind_ok]
    rw [ih (acc ++ (splitChunksRaw doc 512).map g)]
    simp

/-- C9 (implicit): applied to a list of input documents with a provider
that succeeds on every chunk (result `g ch` on chunk `ch`), `__call__`
returns a single flat list of embedding vectors — the per-document,
per-chunk results concatenated in input order, one vector per chunk of
each document at the fixed chunk size 512 — and that flat list's length is
the sum over the input documents of `⌈len(doc) / 512⌉`, not the number of
input documents. -/
theorem call_returns_flat_embeddings (provider : List Char → Except ε V)
    (g : List Char → V) (input : List (List Char))
    (hg : ∀ ch, provider ch = .ok (g ch)) :
    MyEmbeddingFunction_call provider input =
      .ok ((input.map (fun doc => (splitChunksRaw doc 512).map g)).flatten) ∧
    ((input.map (fun doc => (splitChunksRaw doc 512).map g)).flatten).length =
      (input.map (fun doc => doc.length ⌈/⌉ 512)).sum := by
  constructor
  · unfold MyEmbeddingFunction_call
    rw [myCallLoop_ok provider g hg input []]
    simp
  · rw [List.length_flatten, List.map_map]
    apply congrArg List.sum
    apply List.map_congr_left
    intro doc _
    simp only [Function.comp, List.length_map]
    have h512 : (splitChunksRaw doc ((512 : Nat) : Int)).length = doc.length ⌈/⌉ 512 := by
      rw [splitChunksRaw_eq doc 512 (by omega)]
      simp
    have hcast : ((512 : Nat) : Int) = (512 : Int) := by norm_cast
    rw [hcast] at h512
    exact h512

set_option maxRecDepth 4000 in
/-- Witness for C9: two documents, one chunk each at chunk size 512, so
the flat result has two vectors. -/
theorem call_returns_flat_embeddings_witness :
    (∀ ch : List Char,
      (fun ch => (Except.ok ch.length : Except Unit Nat)) ch = .ok ch.length) ∧
    MyEmbeddingFunction_call (fun ch => (Except.ok ch.length : Except Unit Nat))
        [['A'], ['B', 'C']] = .ok [1, 2] :=
  ⟨fun _ => rfl,
    (call_returns_flat_embeddings (fun ch => (Except.ok ch.length : Except Unit Nat))
      List.length [['A'], ['B', 'C']] (fun _ => rfl)).1⟩
